import Mathlib

/-!
Shallow embedding of `src/reservation_resolver/main.py`.

A `datetime.date` is modelled by its proleptic-Gregorian ordinal
(`date.toordinal()`), a natural number; consecutive calendar days have
consecutive ordinals (2024-01-01 has ordinal 738886).  A
`collections.Counter[datetime.date]` is modelled extensionally as a total
function `Nat → Int`: reading an absent key returns the Counter default `0`,
and writing a key updates the function at that point.  Raising `ValueError`
is modelled by returning `Except.error`; in-place mutation is modelled by
threading the counter state, so an error carries the counter state as it
stands when the exception is raised.  The randomness of
`random.SystemRandom().choice` is modelled by an arbitrary stream
`picks : Nat → Nat` of draws, reduced modulo the current pool length, so that
every pool position is selectable at every step.
-/

namespace ReservationResolver

/-- `Counter[datetime.date]`: a total map with default value `0` for keys
that were never written. -/
abbrev Counter := Nat → Int

/-- The `Reservation` named tuple: `start`, `end`, `name`
(`main.py`, lines 10-12). -/
structure Reservation where
  start : Nat
  «end» : Nat
  name : String
deriving DecidableEq

/-- `ROOMS = 2` (`main.py`, line 15). -/
def ROOMS : Int := 2

/-- `date_range(start, end)` (`main.py`, lines 19-26): yields `start`,
`start+1`, ... while `current < end`, stepping one day; the list
`[start, start+1, ..., end-1]`, empty when `start >= end`. -/
def date_range (start : Nat) («end» : Nat) : List Nat :=
  (List.range («end» - start)).map (fun i => start + i)

/-- `availability[date] = v`: point update of the counter. -/
def cset (c : Counter) (d : Nat) (v : Int) : Counter :=
  fun x => if x = d then v else c x

/-- `min(x.start for x in reservations)` for the non-empty list
`r0 :: rs` (`main.py`, line 36). -/
def minStart (r0 : Reservation) (rs : List Reservation) : Nat :=
  rs.foldl (fun m x => min m x.start) r0.start

/-- `max(x.end for x in reservations)` for the non-empty list
`r0 :: rs` (`main.py`, line 37). -/
def maxEnd (r0 : Reservation) (rs : List Reservation) : Nat :=
  rs.foldl (fun m x => max m x.«end») r0.«end»

/-- The loop of `create_availability` (`main.py`, lines 44-47): start from an
empty `Counter` and set every date between the minimum start and the maximum
end to `ROOMS`. -/
def mkAvail (r0 : Reservation) (rs : List Reservation) : Counter :=
  (date_range (minStart r0 rs) (maxEnd r0 rs)).foldl
    (fun a d => cset a d ROOMS) (fun _ => 0)

/-- Errors raised by the resolver.  `emptyInput` is the `ValueError` raised
by `min()` on an empty sequence in `create_availability`; `pickFromEmpty` is
the `IndexError` of `random.choice` on an empty list; `capacity` is the
`ValueError` of `update_availability` (carrying the offending reservation,
the offending day, and the counter state at the moment of the raise);
`outOfFuel` is an artifact of the fuel-indexed embedding of the `while` loop
and carries the state reached when the fuel runs out (it is proved
unreachable when the fuel is at least the initial pool size). -/
inductive ResolveError where
  | emptyInput
  | pickFromEmpty
  | capacity (reservation : Reservation) (day : Nat) (availability : Counter)
  | outOfFuel (pool : List Reservation) (avail : Counter)
      (chosen : List Reservation) (pruned : List Reservation)

/-- `create_availability(reservations)` (`main.py`, lines 29-47): on an empty
list, `min()` raises `ValueError`; otherwise every date in
`date_range(min_date, max_date)` is set to `ROOMS`. -/
def create_availability (reservations : List Reservation) :
    Except ResolveError Counter :=
  match reservations with
  | [] => .error .emptyInput
  | r0 :: rs => .ok (mkAvail r0 rs)

/-- `pick_reservation(reservations)` (`main.py`, lines 50-64): draw `i`,
take `picked = reservations[i % len]`, then `reservations.remove(picked)`,
which removes the first element equal to `picked` (`List.erase`).  On an
empty list `random.choice` raises `IndexError`, modelled by `none`. -/
def pick_reservation (i : Nat) (reservations : List Reservation) :
    Option (Reservation × List Reservation) :=
  if h : reservations.length = 0 then none
  else
    let picked := reservations.get ⟨i % reservations.length,
      Nat.mod_lt _ (Nat.pos_of_ne_zero h)⟩
    some (picked, reservations.erase picked)

/-- The condition tested by `remove_conflicting` for one reservation
(`main.py`, lines 83-86): `any(availability[date] == 0 for date in
date_range(reservation.start, reservation.end))`. -/
def conflicts (availability : Counter) (reservation : Reservation) : Bool :=
  (date_range reservation.start reservation.«end»).any
    (fun date => availability date == 0)

/-- `remove_conflicting(reservations, availability)` (`main.py`, lines
67-89): iterate over the snapshot `all_reservations = reservations[:]` and
for each conflicting entry call `reservations.remove(reservation)` on the
live list (removing the first equal element). -/
def remove_conflicting (reservations : List Reservation)
    (availability : Counter) : List Reservation :=
  reservations.foldl
    (fun pool reservation =>
      if conflicts availability reservation then pool.erase reservation
      else pool)
    reservations

/-- The `for day in ...` loop of `update_availability` (`main.py`, lines
106-109): decrement `availability[day]`, then raise `ValueError` if the new
value is below zero; the error carries the day and the counter state at the
moment of the raise (the in-place mutations already performed persist). -/
def update_days : List Nat → Counter → Except (Nat × Counter) Counter
  | [], a => .ok a
  | d :: ds, a =>
    if (cset a d (a d - 1)) d < 0 then .error (d, cset a d (a d - 1))
    else update_days ds (cset a d (a d - 1))

/-- `update_availability(reservation, availability)` (`main.py`, lines
92-114). -/
def update_availability (reservation : Reservation) (availability : Counter) :
    Except (Nat × Counter) Counter :=
  update_days (date_range reservation.start reservation.«end») availability

/-- The resolver's mutable state at the top of each `while` iteration
(`main.py`, lines 153-160): the pending pool (`requests`), the availability
counter, and the granted list (`chosen`).  The `pruned` field is a ghost
accumulator recording the reservations removed by `remove_conflicting`
(observable in the source as the `"Removing reservation %r"` log line,
`main.py`, line 88). -/
structure ResolveState where
  pool : List Reservation
  avail : Counter
  chosen : List Reservation
  pruned : List Reservation

/-- One iteration of the `__main__` loop (`main.py`, lines 157-160):
`picked = pick_reservation(requests)`;
`update_availability(picked, availablility)`;
`remove_conflicting(requests, availablility)`;
`chosen.append(picked)`. -/
def resolver_iter (i : Nat) (s : ResolveState) :
    Except ResolveError ResolveState :=
  match pick_reservation i s.pool with
  | none => .error .pickFromEmpty
  | some (picked, rest) =>
    match update_availability picked s.avail with
    | .error (day, c) => .error (.capacity picked day c)
    | .ok availability =>
      .ok { pool := remove_conflicting rest availability
            avail := availability
            chosen := s.chosen ++ [picked]
            pruned := s.pruned ++
              rest.filter (fun r => conflicts availability r) }

/-- The `while len(requests):` loop (`main.py`, lines 156-160), embedded
with a fuel parameter: each recursive call consumes one unit of fuel and
shifts the stream of random draws.  Exhausting the fuel while the pool is
still non-empty returns the `outOfFuel` artifact error carrying the state
reached at that point. -/
def resolve_loop (picks : Nat → Nat) (fuel : Nat) (s : ResolveState) :
    Except ResolveError ResolveState :=
  match fuel with
  | 0 =>
    if s.pool = [] then .ok s
    else .error (.outOfFuel s.pool s.avail s.chosen s.pruned)
  | Nat.succ fuel' =>
    if s.pool = [] then .ok s
    else
      match resolver_iter (picks 0) s with
      | .error e => .error e
      | .ok s' => resolve_loop (fun n => picks (n + 1)) fuel' s'

/-- The resolver state immediately after the tracker has been built from the
non-empty request list `r0 :: rs` (`main.py`, lines 154-155). -/
def initState (r0 : Reservation) (rs : List Reservation) : ResolveState :=
  { pool := r0 :: rs, avail := mkAvail r0 rs, chosen := [], pruned := [] }

/-- The `__main__` allocation pipeline from already-parsed requests
(`main.py`, lines 154-160): build the availability counter, then run the
loop; the loop is given fuel equal to the initial pool size, which is proved
sufficient. -/
def run_resolver (picks : Nat → Nat) (requests : List Reservation) :
    Except ResolveError ResolveState :=
  match create_availability requests with
  | .error e => .error e
  | .ok availability =>
    resolve_loop picks requests.length
      { pool := requests, avail := availability, chosen := [], pruned := [] }

/-- Ordinal of 2024-01-01 (`datetime.date(2024, 1, 1).toordinal()`). -/
def day20240101 : Nat := 738886

/-- Ordinal of 2024-01-02. -/
def day20240102 : Nat := 738887

/-- Ordinal of 2024-01-03. -/
def day20240103 : Nat := 738888

/-- Ordinal of 2024-01-04. -/
def day20240104 : Nat := 738889

/-- Request A of the end-to-end scenario: Alice, 2024-01-01..2024-01-03. -/
def alice : Reservation := ⟨day20240101, day20240103, "Alice"⟩

/-- Request B of the end-to-end scenario: Bob, 2024-01-02..2024-01-04. -/
def bob : Reservation := ⟨day20240102, day20240104, "Bob"⟩

/-- Request C of the end-to-end scenario: Carol, 2024-01-01..2024-01-02. -/
def carol : Reservation := ⟨day20240101, day20240102, "Carol"⟩

/-- Every tracked count lies in the capacity band `[0, ROOMS]`. -/
def availBounds (a : Counter) : Prop :=
  ∀ d, 0 ≤ a d ∧ a d ≤ ROOMS

/-- Every pending reservation still has at least one free room on each day
of its span (the state of affairs `remove_conflicting` establishes). -/
def poolFeasible (pool : List Reservation) (a : Counter) : Prop :=
  ∀ r ∈ pool, ∀ d ∈ date_range r.start r.«end», 1 ≤ a d

/-- The multiset of reservations accounted for by a resolver state:
granted, still pending, or pruned. -/
def accounted (s : ResolveState) : Multiset Reservation :=
  (↑(s.chosen ++ s.pool ++ s.pruned) : Multiset Reservation)

/-- Membership in `date_range`: exactly the days `start ≤ d < end`. -/
theorem mem_date_range {s e d : Nat} :
    d ∈ date_range s e ↔ s ≤ d ∧ d < e := by
  simp only [date_range, List.mem_map, List.mem_range]
  constructor
  · rintro ⟨i, hi, rfl⟩
    omega
  · intro h
    exact ⟨d - s, by omega, by omega⟩

/-- `date_range` is empty when `start ≥ end`. -/
theorem date_range_eq_nil {s e : Nat} (h : e ≤ s) : date_range s e = [] := by
  simp [date_range, Nat.sub_eq_zero_of_le h]

/-- `date_range` steps one day at a time. -/
theorem date_range_cons {s e : Nat} (h : s < e) :
    date_range s e = s :: date_range (s + 1) e := by
  have h1 : e - s = (e - (s + 1)) + 1 := by omega
  rw [date_range, date_range, h1, List.range_succ_eq_map]
  simp only [List.map_cons, Nat.add_zero, List.map_map]
  have h2 : (fun i => s + i) ∘ Nat.succ = fun i => (s + 1) + i := by
    funext i
    simp only [Function.comp_apply]
    omega
  rw [h2]

/-- The days of a span are pairwise distinct. -/
theorem date_range_nodup (s e : Nat) : (date_range s e).Nodup :=
  (List.nodup_range _).map (fun a b hab => by omega)

/-- The days of a span are listed in strictly increasing order. -/
theorem date_range_sorted (s e : Nat) :
    (date_range s e).Pairwise (· < ·) :=
  (List.pairwise_lt_range _).map _ (fun a b hab => by omega)

/-- Reading the written key. -/
theorem cset_same (c : Counter) (d : Nat) (v : Int) : cset c d v d = v := by
  simp [cset]

/-- Reading any other key. -/
theorem cset_other (c : Counter) (d : Nat) (v : Int) {x : Nat}
    (h : x ≠ d) : cset c d v x = c x := by
  simp [cset, h]

/-- Evaluating the `create_availability` loop pointwise. -/
theorem foldl_cset_eval (l : List Nat) (a : Counter) (v : Int) (x : Nat) :
    (l.foldl (fun c d => cset c d v) a) x = if x ∈ l then v else a x := by
  induction l generalizing a with
  | nil => simp
  | cons d ds ih =>
    simp only [List.foldl_cons, ih, List.mem_cons]
    by_cases h1 : x ∈ ds <;> by_cases h2 : x = d <;> simp [h1, h2, cset]

/-- Pointwise value of the freshly built availability counter: `ROOMS` on
the tracked domain, the Counter default `0` elsewhere. -/
theorem mkAvail_eval (r0 : Reservation) (rs : List Reservation) (x : Nat) :
    mkAvail r0 rs x =
      if x ∈ date_range (minStart r0 rs) (maxEnd r0 rs) then ROOMS else 0 :=
  foldl_cset_eval _ _ _ _

/-- The min-fold is bounded by its initial accumulator. -/
theorem foldl_min_le_init (rs : List Reservation) (acc : Nat) :
    rs.foldl (fun m x => min m x.start) acc ≤ acc := by
  induction rs generalizing acc with
  | nil => exact Nat.le_refl _
  | cons r rs ih =>
    exact Nat.le_trans (ih (min acc r.start)) (Nat.min_le_left _ _)

/-- The min-fold is bounded by every list element. -/
theorem foldl_min_le_mem (rs : List Reservation) (acc : Nat)
    {r : Reservation} (h : r ∈ rs) :
    rs.foldl (fun m x => min m x.start) acc ≤ r.start := by
  induction rs generalizing acc with
  | nil => cases h
  | cons a as ih =>
    rcases List.mem_cons.mp h with h | h
    · subst h
      exact Nat.le_trans (foldl_min_le_init as _) (Nat.min_le_right _ _)
    · exact ih (min acc a.start) h

/-- The max-fold dominates its initial accumulator. -/
theorem init_le_foldl_max (rs : List Reservation) (acc : Nat) :
    acc ≤ rs.foldl (fun m x => max m x.«end») acc := by
  induction rs generalizing acc with
  | nil => exact Nat.le_refl _
  | cons r rs ih =>
    exact Nat.le_trans (Nat.le_max_left _ _) (ih (max acc r.«end»))

/-- The max-fold dominates every list element. -/
theorem mem_le_foldl_max (rs : List Reservation) (acc : Nat)
    {r : Reservation} (h : r ∈ rs) :
    r.«end» ≤ rs.foldl (fun m x => max m x.«end») acc := by
  induction rs generalizing acc with
  | nil => cases h
  | cons a as ih =>
    rcases List.mem_cons.mp h with h | h
    · subst h
      exact Nat.le_trans (Nat.le_max_right _ _) (init_le_foldl_max as _)
    · exact ih (max acc a.«end») h

/-- `minStart` is a lower bound for every start in the pool. -/
theorem minStart_le {r0 : Reservation} {rs : List Reservation}
    {r : Reservation} (h : r ∈ r0 :: rs) : minStart r0 rs ≤ r.start := by
  rcases List.mem_cons.mp h with h | h
  · subst h
    exact foldl_min_le_init rs r.start
  · exact foldl_min_le_mem rs r0.start h

/-- `maxEnd` is an upper bound for every end in the pool. -/
theorem le_maxEnd {r0 : Reservation} {rs : List Reservation}
    {r : Reservation} (h : r ∈ r0 :: rs) : r.«end» ≤ maxEnd r0 rs := by
  rcases List.mem_cons.mp h with h | h
  · subst h
    exact init_le_foldl_max rs r.«end»
  · exact mem_le_foldl_max rs r0.«end» h

/-- When every day of the list still has a free room, the decrement loop
succeeds and subtracts exactly one from each listed day, touching nothing
else. -/
theorem update_days_ok (l : List Nat) (a : Counter) (hl : l.Nodup)
    (h : ∀ d ∈ l, 1 ≤ a d) :
    ∃ a', update_days l a = .ok a' ∧
      ∀ x, a' x = if x ∈ l then a x - 1 else a x := by
  induction l generalizing a with
  | nil => exact ⟨a, rfl, fun x => by simp⟩
  | cons d ds ih =>
    have hd : 1 ≤ a d := h d (List.mem_cons_self d ds)
    have hnd : d ∉ ds := (List.nodup_cons.mp hl).1
    have hds : ds.Nodup := (List.nodup_cons.mp hl).2
    have hcond : ¬ ((cset a d (a d - 1)) d < 0) := by
      rw [cset_same]
      omega
    have h1 : ∀ x ∈ ds, 1 ≤ (cset a d (a d - 1)) x := by
      intro x hx
      rw [cset_other _ _ _ (fun hxd : x = d => hnd (hxd ▸ hx))]
      exact h x (List.mem_cons_of_mem _ hx)
    obtain ⟨a', heq, hpt⟩ := ih (cset a d (a d - 1)) hds h1
    refine ⟨a', ?_, ?_⟩
    · simp only [update_days]
      rw [if_neg hcond]
      exact heq
    · intro x
      rcases eq_or_ne x d with rfl | hxd
      · rw [hpt x, if_neg hnd, cset_same]
        simp
      · rw [hpt x, cset_other _ _ _ hxd]
        by_cases hx : x ∈ ds <;> simp [List.mem_cons, hx, hxd]

/-- The decrement loop raises exactly when some listed day has no free room
left. -/
theorem update_days_err_iff (l : List Nat) (a : Counter) (hl : l.Nodup) :
    (∃ d c, update_days l a = .error (d, c)) ↔ ∃ d ∈ l, a d ≤ 0 := by
  induction l generalizing a with
  | nil => simp [update_days]
  | cons d ds ih =>
    have hnd : d ∉ ds := (List.nodup_cons.mp hl).1
    have hds : ds.Nodup := (List.nodup_cons.mp hl).2
    by_cases hd : a d ≤ 0
    · constructor
      · intro _
        exact ⟨d, List.mem_cons_self d ds, hd⟩
      · intro _
        refine ⟨d, cset a d (a d - 1), ?_⟩
        simp only [update_days]
        rw [if_pos (by rw [cset_same]; omega)]
    · have hcond : ¬ ((cset a d (a d - 1)) d < 0) := by
        rw [cset_same]
        omega
      have hstep : update_days (d :: ds) a
          = update_days ds (cset a d (a d - 1)) := by
        simp only [update_days]
        rw [if_neg hcond]
      rw [hstep, ih _ hds]
      constructor
      · rintro ⟨x, hx, hx0⟩
        refine ⟨x, List.mem_cons_of_mem _ hx, ?_⟩
        rwa [cset_other _ _ _ (fun hh : x = d => hnd (hh ▸ hx))] at hx0
      · rintro ⟨x, hx, hx0⟩
        rcases List.mem_cons.mp hx with rfl | hx'
        · exact absurd hx0 hd
        · exact ⟨x, hx', by
            rwa [cset_other _ _ _ (fun hh : x = d => hnd (hh ▸ hx'))]⟩

/-- State of the counter at the moment the decrement loop raises: the
offending day `d` is a listed day with no free room; it has just been
decremented; every listed day before it has already been decremented (and
had a free room); every other day is untouched. -/
theorem update_days_err_state (l : List Nat) (a : Counter)
    (hl : l.Pairwise (· < ·)) (d : Nat) (c : Counter)
    (h : update_days l a = .error (d, c)) :
    d ∈ l ∧ a d ≤ 0 ∧ c d = a d - 1 ∧
      (∀ x ∈ l, x < d → c x = a x - 1 ∧ 1 ≤ a x) ∧
      (∀ x, x ∉ l ∨ d < x → c x = a x) := by
  induction l generalizing a with
  | nil => simp [update_days] at h
  | cons d0 ds ih =>
    have hlt : ∀ x ∈ ds, d0 < x := (List.pairwise_cons.mp hl).1
    have hds : ds.Pairwise (· < ·) := (List.pairwise_cons.mp hl).2
    have hnd : d0 ∉ ds := fun hmem => lt_irrefl d0 (hlt d0 hmem)
    by_cases hd0 : a d0 - 1 < 0
    · have hrw : update_days (d0 :: ds) a
          = .error (d0, cset a d0 (a d0 - 1)) := by
        simp only [update_days]
        rw [if_pos (by rw [cset_same]; exact hd0)]
      rw [hrw] at h
      injection h with hpair
      injection hpair with h1 h2
      subst h1
      subst h2
      refine ⟨List.mem_cons_self _ _, by omega, cset_same _ _ _, ?_, ?_⟩
      · intro x hx hxd
        rcases List.mem_cons.mp hx with rfl | hx'
        · omega
        · exact absurd hxd (by have := hlt x hx'; omega)
      · intro x hx
        refine cset_other _ _ _ ?_
        rcases hx with hx | hx
        · exact fun hh => hx (hh ▸ List.mem_cons_self _ _)
        · omega
    · have hrw : update_days (d0 :: ds) a
          = update_days ds (cset a d0 (a d0 - 1)) := by
        simp only [update_days]
        rw [if_neg (by rw [cset_same]; exact hd0)]
      rw [hrw] at h
      obtain ⟨hdm, hdle, hcd, hbefore, hafter⟩ := ih _ hds h
      have hdd0 : d ≠ d0 := fun hh => hnd (hh ▸ hdm)
      have hd0d : d0 < d := hlt d hdm
      refine ⟨List.mem_cons_of_mem _ hdm, ?_, ?_, ?_, ?_⟩
      · rwa [cset_other _ _ _ hdd0] at hdle
      · rwa [cset_other _ _ _ hdd0] at hcd
      · intro x hx hxd
        rcases List.mem_cons.mp hx with rfl | hx'
        · have hc0 : c x = cset a x (a x - 1) x :=
            hafter x (Or.inl hnd)
          rw [hc0, cset_same]
          exact ⟨rfl, by omega⟩
        · have hxd0 : x ≠ d0 := fun hh => hnd (hh ▸ hx')
          have := hbefore x hx' hxd
          rwa [cset_other _ _ _ hxd0] at this
      · intro x hx
        have hxd0 : x ≠ d0 := by
          rcases hx with hx | hx
          · exact fun hh => hx (hh ▸ List.mem_cons_self _ _)
          · omega
        have hx' : x ∉ ds ∨ d < x := by
          rcases hx with hx | hx
          · exact Or.inl (fun hh => hx (List.mem_cons_of_mem _ hh))
          · exact Or.inr hx
        rw [hafter x hx', cset_other _ _ _ hxd0]

/-- A reservation is conflict-free exactly when every day of its span still
has a free room. -/
theorem conflicts_eq_false_iff (a : Counter) (r : Reservation) :
    conflicts a r = false ↔
      ∀ d ∈ date_range r.start r.«end», a d ≠ 0 := by
  rw [conflicts, ← Bool.not_eq_true, List.any_eq_true]
  simp [beq_iff_eq]

/-- Folding per-element `erase` of each conflicting snapshot entry over the
live list is an order-preserving filter, provided the already-kept prefix
holds only non-conflicting entries. -/
theorem foldl_erase_filter (p : Reservation → Bool) (rem : List Reservation) :
    ∀ keep : List Reservation, (∀ x ∈ keep, p x = false) →
      rem.foldl (fun pool r => if p r then pool.erase r else pool)
        (keep ++ rem) = keep ++ rem.filter (fun r => !p r) := by
  induction rem with
  | nil =>
    intro keep hk
    simp
  | cons r rest ih =>
    intro keep hk
    by_cases hp : p r = true
    · have hr : r ∉ keep := fun hmem => by
        rw [hk r hmem] at hp
        exact Bool.false_ne_true hp
      have step : (keep ++ r :: rest).erase r = keep ++ rest := by
        rw [List.erase_append_right _ hr, List.erase_cons_head]
      simp only [List.foldl_cons, hp, if_true, step]
      rw [ih keep hk]
      simp [List.filter_cons, hp]
    · have hp' : p r = false := Bool.eq_false_iff.mpr hp
      have step : keep ++ r :: rest = (keep ++ [r]) ++ rest := by
        simp
      simp only [List.foldl_cons, hp', Bool.false_eq_true, if_false, step]
      have hk' : ∀ x ∈ keep ++ [r], p x = false := by
        intro x hx
        rcases List.mem_append.mp hx with hx | hx
        · exact hk x hx
        · rw [List.mem_singleton.mp hx]
          exact hp'
      rw [ih (keep ++ [r]) hk']
      simp [List.filter_cons, hp']

/-- `remove_conflicting` is exactly the order-preserving filter keeping the
non-conflicting reservations. -/
theorem remove_conflicting_eq_filter (pool : List Reservation) (a : Counter) :
    remove_conflicting pool a = pool.filter (fun r => !conflicts a r) := by
  have h := foldl_erase_filter (fun r => conflicts a r) pool []
    (fun x hx => absurd hx (List.not_mem_nil x))
  simpa [remove_conflicting] using h

/-- `pick_reservation` on a non-empty pool returns some member and removes
exactly one occurrence of it. -/
theorem pick_reservation_spec (i : Nat) (pool : List Reservation)
    (h : pool ≠ []) :
    ∃ picked rest, pick_reservation i pool = some (picked, rest) ∧
      picked ∈ pool ∧ rest = pool.erase picked ∧
      rest.length + 1 = pool.length := by
  have hlen : pool.length ≠ 0 := fun hh => h (List.length_eq_zero.mp hh)
  refine ⟨pool.get ⟨i % pool.length, Nat.mod_lt _ (Nat.pos_of_ne_zero hlen)⟩,
    pool.erase _, ?_, List.get_mem _ _ _, rfl, ?_⟩
  · simp [pick_reservation, hlen]
  · rw [List.length_erase_of_mem (List.get_mem _ _ _)]
    omega

/-- Restating `accounted` as a sum of three multisets. -/
theorem accounted_eq (st : ResolveState) :
    accounted st =
      (↑st.chosen + ↑st.pool + ↑st.pruned : Multiset Reservation) := by
  simp only [accounted, ← Multiset.coe_add]

/-- One loop iteration from a state where every tracked count is within
capacity and every pending reservation is still satisfiable: the pick
succeeds, the commit succeeds, both invariants are re-established, the pool
shrinks by at least one element, and no reservation is created or lost. -/
theorem resolver_iter_spec (i : Nat) (s : ResolveState)
    (hb : availBounds s.avail) (hf : poolFeasible s.pool s.avail)
    (hne : s.pool ≠ []) :
    ∃ s', resolver_iter i s = .ok s' ∧ availBounds s'.avail ∧
      poolFeasible s'.pool s'.avail ∧
      s'.pool.length < s.pool.length ∧ accounted s' = accounted s := by
  obtain ⟨picked, rest, hpick, hmem, hrest, hlen⟩ :=
    pick_reservation_spec i s.pool hne
  have hfeas : ∀ d ∈ date_range picked.start picked.«end», 1 ≤ s.avail d :=
    hf picked hmem
  obtain ⟨a', hupd, hpt⟩ :=
    update_days_ok _ s.avail (date_range_nodup _ _) hfeas
  have hb' : availBounds a' := by
    intro d
    rcases hb d with ⟨h0, h2⟩
    by_cases hd : d ∈ date_range picked.start picked.«end»
    · rw [hpt d, if_pos hd]
      have := hfeas d hd
      omega
    · rw [hpt d, if_neg hd]
      exact ⟨h0, h2⟩
  have hf' : poolFeasible (remove_conflicting rest a') a' := by
    intro r hr d hd
    rw [remove_conflicting_eq_filter] at hr
    have hmf := List.mem_filter.mp hr
    have hcf : conflicts a' r = false := by
      simpa using hmf.2
    have hne0 := (conflicts_eq_false_iff a' r).mp hcf d hd
    rcases hb' d with ⟨h0, _⟩
    omega
  have hlen' : (remove_conflicting rest a').length < s.pool.length := by
    rw [remove_conflicting_eq_filter]
    have := List.length_filter_le (fun r => !conflicts a' r) rest
    omega
  refine ⟨{ pool := remove_conflicting rest a'
            avail := a'
            chosen := s.chosen ++ [picked]
            pruned := s.pruned ++ rest.filter (fun r => conflicts a' r) },
    ?_, hb', hf', hlen', ?_⟩
  · have hupd2 : update_availability picked s.avail = .ok a' := hupd
    simp only [resolver_iter, hpick, hupd2]
  · have hq : (↑(rest.filter (fun r => !conflicts a' r)) +
        ↑(rest.filter (fun r => conflicts a' r)) : Multiset Reservation)
        = ↑rest := by
      rw [Multiset.coe_add]
      refine Multiset.coe_eq_coe.mpr ?_
      have hfp := List.filter_append_perm (fun r => !conflicts a' r) rest
      simpa [Bool.not_not] using hfp
    have hp : (({picked} : Multiset Reservation) + ↑rest) = ↑s.pool := by
      rw [Multiset.singleton_add, Multiset.cons_coe]
      refine Multiset.coe_eq_coe.mpr ?_
      rw [hrest]
      exact (List.perm_cons_erase hmem).symm
    rw [accounted_eq, accounted_eq]
    show (↑(s.chosen ++ [picked]) + ↑(remove_conflicting rest a') +
        ↑(s.pruned ++ rest.filter (fun r => conflicts a' r))
          : Multiset Reservation)
      = ↑s.chosen + ↑s.pool + ↑s.pruned
    rw [remove_conflicting_eq_filter, ← Multiset.coe_add,
      ← Multiset.coe_add, Multiset.coe_singleton, ← hp, ← hq]
    abel

/-- Running the loop from any state satisfying both invariants either
completes with an empty pool (within the given fuel) or runs out of fuel;
in both cases the invariants still hold, the reservation accounting is
unchanged, and in the out-of-fuel case the pool shrank by at least one
element per iteration performed. -/
theorem resolve_loop_spec (fuel : Nat) :
    ∀ (picks : Nat → Nat) (s : ResolveState),
      availBounds s.avail → poolFeasible s.pool s.avail →
      (∃ s', resolve_loop picks fuel s = .ok s' ∧ availBounds s'.avail ∧
        poolFeasible s'.pool s'.avail ∧ s'.pool = [] ∧
        accounted s' = accounted s) ∨
      (∃ s', resolve_loop picks fuel s
          = .error (.outOfFuel s'.pool s'.avail s'.chosen s'.pruned) ∧
        availBounds s'.avail ∧ poolFeasible s'.pool s'.avail ∧
        s'.pool ≠ [] ∧ accounted s' = accounted s ∧
        fuel + s'.pool.length ≤ s.pool.length) := by
  induction fuel with
  | zero =>
    intro picks s hb hf
    by_cases hp : s.pool = []
    · exact Or.inl ⟨s, by simp [resolve_loop, hp], hb, hf, hp, rfl⟩
    · exact Or.inr ⟨s, by simp [resolve_loop, hp], hb, hf, hp, rfl, by omega⟩
  | succ fuel ih =>
    intro picks s hb hf
    by_cases hp : s.pool = []
    · exact Or.inl ⟨s, by simp [resolve_loop, hp], hb, hf, hp, rfl⟩
    · obtain ⟨s1, hiter, hb1, hf1, hlen1, hacc1⟩ :=
        resolver_iter_spec (picks 0) s hb hf hp
      have hloop : resolve_loop picks (fuel + 1) s
          = resolve_loop (fun n => picks (n + 1)) fuel s1 := by
        simp [resolve_loop, hp, hiter]
      rcases ih (fun n => picks (n + 1)) s1 hb1 hf1 with
        ⟨s', h1, h2, h3, h4, h5⟩ | ⟨s', h1, h2, h3, h4, h5, h6⟩
      · exact Or.inl ⟨s', by rw [hloop]; exact h1, h2, h3, h4,
          h5.trans hacc1⟩
      · exact Or.inr ⟨s', by rw [hloop]; exact h1, h2, h3, h4,
          h5.trans hacc1, by omega⟩

/-- The freshly built availability counter satisfies the capacity bounds
everywhere. -/
theorem mkAvail_bounds (r0 : Reservation) (rs : List Reservation) :
    availBounds (mkAvail r0 rs) := by
  intro d
  rw [mkAvail_eval]
  split
  · exact ⟨by decide, le_refl _⟩
  · exact ⟨le_refl _, by decide⟩

/-- Every initial reservation is feasible against the freshly built
counter: its span lies inside the tracked domain, where every count is
`ROOMS`. -/
theorem initState_feasible (r0 : Reservation) (rs : List Reservation) :
    poolFeasible (r0 :: rs) (mkAvail r0 rs) := by
  intro r hr d hd
  obtain ⟨h1, h2⟩ := mem_date_range.mp hd
  have hmin := minStart_le hr
  have hmax := le_maxEnd hr
  have hdom : d ∈ date_range (minStart r0 rs) (maxEnd r0 rs) :=
    mem_date_range.mpr ⟨by omega, by omega⟩
  rw [mkAvail_eval, if_pos hdom]
  decide

/-- C1: capacity invariant — after the tracker is built, and after each
iteration of the pick/commit/prune loop, every tracked count lies in
`[0, ROOMS]`; the loop never aborts with a capacity violation. -/
theorem capacity_invariant (picks : Nat → Nat) (r0 : Reservation)
    (rs : List Reservation) (k : Nat) :
    availBounds (mkAvail r0 rs) ∧
    (∀ s', resolve_loop picks k (initState r0 rs) = .ok s' →
      availBounds s'.avail) ∧
    (∀ pl av ch pr, resolve_loop picks k (initState r0 rs)
        = .error (.outOfFuel pl av ch pr) → availBounds av) ∧
    (∀ rr dd cc, resolve_loop picks k (initState r0 rs)
        ≠ .error (.capacity rr dd cc)) := by
  have hspec := resolve_loop_spec k picks (initState r0 rs)
    (mkAvail_bounds r0 rs) (initState_feasible r0 rs)
  refine ⟨mkAvail_bounds r0 rs, ?_, ?_, ?_⟩
  · intro s' hs'
    rcases hspec with ⟨t, ht, htb, _⟩ | ⟨t, ht, _⟩
    · rw [ht] at hs'
      injection hs' with h
      rw [← h]
      exact htb
    · rw [ht] at hs'
      exact Except.noConfusion hs'
  · intro pl av ch pr hs'
    rcases hspec with ⟨t, ht, _⟩ | ⟨t, ht, htb, _⟩
    · rw [ht] at hs'
      exact Except.noConfusion hs'
    · rw [ht] at hs'
      injection hs' with h
      injection h with e1 e2 e3 e4
      rw [← e2]
      exact htb
  · intro rr dd cc hs'
    rcases hspec with ⟨t, ht, _⟩ | ⟨t, ht, _⟩
    · rw [ht] at hs'
      exact Except.noConfusion hs'
    · rw [ht] at hs'
      injection hs' with h
      exact ResolveError.noConfusion h

/-- C2: after pruning, the pool contains exactly those reservations whose
half-open span contains no zero-count date; the result is the
order-preserving filter of the pool, so final membership does not depend on
the order in which removals are applied. -/
theorem prune_correctness (pool : List Reservation) (availability : Counter) :
    remove_conflicting pool availability
      = pool.filter (fun r => !conflicts availability r) ∧
    ∀ r, r ∈ remove_conflicting pool availability ↔
      r ∈ pool ∧
        ∀ d ∈ date_range r.start r.«end», availability d ≠ 0 := by
  refine ⟨remove_conflicting_eq_filter pool availability, fun r => ?_⟩
  rw [remove_conflicting_eq_filter, List.mem_filter]
  constructor
  · rintro ⟨h1, h2⟩
    exact ⟨h1, (conflicts_eq_false_iff _ r).mp (by simpa using h2)⟩
  · rintro ⟨h1, h2⟩
    exact ⟨h1, by simpa using (conflicts_eq_false_iff _ r).mpr h2⟩

/-- C3: `date_range(start, end)` yields exactly the consecutive dates from
`start` inclusive to `end` exclusive, stepping one day; with
`start >= end` it is empty; `range(2024-01-01, 2024-01-04)` yields exactly
2024-01-01, 2024-01-02 and 2024-01-03. -/
theorem range_semantics (s e : Nat) :
    (∀ d, d ∈ date_range s e ↔ s ≤ d ∧ d < e) ∧
    (s < e → date_range s e = s :: date_range (s + 1) e) ∧
    (e ≤ s → date_range s e = []) ∧
    date_range day20240101 day20240104
      = [day20240101, day20240102, day20240103] :=
  ⟨fun _ => mem_date_range, fun h => date_range_cons h,
    fun h => date_range_eq_nil h, by decide⟩

/-- Witness for C3: instantiating both hypothesis-guarded clauses at
concrete dates. -/
theorem range_semantics_witness :
    date_range day20240101 day20240103
      = day20240101 :: date_range (day20240101 + 1) day20240103 ∧
    date_range day20240103 day20240101 = [] :=
  ⟨(range_semantics day20240101 day20240103).2.1 (by decide),
    (range_semantics day20240103 day20240101).2.2.1 (by decide)⟩

/-- C4: with every tracked count non-negative, `update_availability` fails
with the capacity-violation error iff some date of the reservation's
half-open span has count 0 before the commit; otherwise it succeeds and
decrements every span date by exactly one — the count is never silently
clamped at 0. -/
theorem commit_fail_iff (r : Reservation) (a : Counter)
    (hnn : ∀ x, 0 ≤ a x) :
    ((∃ d c, update_availability r a = .error (d, c)) ↔
      ∃ d ∈ date_range r.start r.«end», a d = 0) ∧
    ((∀ d ∈ date_range r.start r.«end», a d ≠ 0) →
      ∃ a', update_availability r a = .ok a' ∧
        ∀ x, a' x = if x ∈ date_range r.start r.«end» then a x - 1
          else a x) := by
  constructor
  · rw [update_availability, update_days_err_iff _ _ (date_range_nodup _ _)]
    constructor
    · rintro ⟨d, hd, hle⟩
      exact ⟨d, hd, le_antisymm hle (hnn d)⟩
    · rintro ⟨d, hd, h0⟩
      exact ⟨d, hd, le_of_eq h0⟩
  · intro h
    exact update_days_ok _ a (date_range_nodup _ _)
      (fun d hd => by have h1 := hnn d; have h2 := h d hd; omega)

/-- Witness for C4: Carol's commit against the all-zero counter fails. -/
theorem commit_fail_iff_witness :
    ∃ d c, update_availability carol (fun _ => (0 : Int)) = .error (d, c) :=
  (commit_fail_iff carol (fun _ => (0 : Int)) (fun _ => le_refl 0)).1.mpr
    ⟨day20240101, by decide, rfl⟩

/-- C5: end-to-end scenario for ROOMS = 2 with the selection forced to pick
Alice, then Bob, then Carol: granted sequence [A, B, C], nothing pruned,
empty final pool, and final counts day01 = 0, day02 = 0, day03 = 1. -/
theorem end_to_end_scenario :
    ROOMS = 2 ∧
    (run_resolver (fun _ => 0) [alice, bob, carol]).map
        (fun s => (s.chosen, s.pool, s.pruned, s.avail day20240101,
          s.avail day20240102, s.avail day20240103))
      = .ok ([alice, bob, carol], [], [], 0, 0, 1) :=
  ⟨rfl, rfl⟩

/-- C6: for every non-empty initial pool the resolver loop terminates
within `|initial pool|` iterations, ending with an empty pool, because each
iteration from a state satisfying the invariants removes at least one pool
element. -/
theorem resolver_termination (picks : Nat → Nat) (r0 : Reservation)
    (rs : List Reservation) :
    (∃ s', resolve_loop picks (r0 :: rs).length (initState r0 rs) = .ok s' ∧
      s'.pool = []) ∧
    ∀ i s, availBounds s.avail → poolFeasible s.pool s.avail →
      s.pool ≠ [] →
      ∃ s', resolver_iter i s = .ok s' ∧
        s'.pool.length < s.pool.length := by
  constructor
  · rcases resolve_loop_spec (r0 :: rs).length picks (initState r0 rs)
        (mkAvail_bounds r0 rs) (initState_feasible r0 rs) with
      ⟨s', h1, _, _, h4, _⟩ | ⟨s', h1, _, _, h4, _, h6⟩
    · exact ⟨s', h1, h4⟩
    · exfalso
      have hpos : 0 < s'.pool.length := List.length_pos.mpr h4
      have h6' : (r0 :: rs).length + s'.pool.length ≤ (r0 :: rs).length := h6
      omega
  · intro i s hb hf hne
    obtain ⟨s', h1, _, _, h4, _⟩ := resolver_iter_spec i s hb hf hne
    exact ⟨s', h1, h4⟩

/-- Witness for C6: one iteration on the singleton pool [Carol] strictly
shrinks the pool. -/
theorem resolver_termination_witness :
    ∃ s', resolver_iter 0 (initState carol []) = .ok s' ∧
      s'.pool.length < (initState carol []).pool.length :=
  (resolver_termination (fun _ => 0) carol []).2 0 (initState carol [])
    (mkAvail_bounds carol []) (initState_feasible carol [])
    (List.cons_ne_nil _ _)

/-- C7: partition property — the loop terminates with an empty pool and the
granted sequence together with the pruned reservations accounts for the
initial pool exactly once each, as a multiset (duplicates permitted). -/
theorem resolution_partition (picks : Nat → Nat) (r0 : Reservation)
    (rs : List Reservation) :
    ∃ s', resolve_loop picks (r0 :: rs).length (initState r0 rs) = .ok s' ∧
      s'.pool = [] ∧
      (↑s'.chosen + ↑s'.pruned : Multiset Reservation) = ↑(r0 :: rs) := by
  rcases resolve_loop_spec (r0 :: rs).length picks (initState r0 rs)
      (mkAvail_bounds r0 rs) (initState_feasible r0 rs) with
    ⟨s', h1, _, _, h4, h5⟩ | ⟨s', h1, _, _, h4, _, h6⟩
  · refine ⟨s', h1, h4, ?_⟩
    rw [accounted_eq, accounted_eq] at h5
    rw [h4] at h5
    simpa [initState] using h5
  · exfalso
    have hpos : 0 < s'.pool.length := List.length_pos.mpr h4
    have h6' : (r0 :: rs).length + s'.pool.length ≤ (r0 :: rs).length := h6
    omega

/-- C8: building the tracker from an empty reservation set fails
immediately with the configuration error, before any allocation work; from
a non-empty set it succeeds, setting every date of
`range(min start, max end)` to `ROOMS` and leaving every other date at the
Counter default 0. -/
theorem build_spec :
    create_availability [] = .error .emptyInput ∧
    (∀ picks, run_resolver picks [] = .error .emptyInput) ∧
    ∀ r0 rs, create_availability (r0 :: rs) = .ok (mkAvail r0 rs) ∧
      (∀ d ∈ date_range (minStart r0 rs) (maxEnd r0 rs),
        mkAvail r0 rs d = ROOMS) ∧
      (∀ d, d ∉ date_range (minStart r0 rs) (maxEnd r0 rs) →
        mkAvail r0 rs d = 0) := by
  refine ⟨rfl, fun picks => rfl, fun r0 rs => ⟨rfl, ?_, ?_⟩⟩
  · intro d hd
    rw [mkAvail_eval, if_pos hd]
  · intro d hd
    rw [mkAvail_eval, if_neg hd]

/-- C9: commit is not atomic on failure — when `update_availability` raises
at date `d`, every span date strictly before `d` has already been
decremented by 1, `d` itself has been left at `-1`, every other date is
untouched, and the counter is not restored to its pre-call state. -/
theorem commit_not_atomic (r : Reservation) (a : Counter) (d : Nat)
    (c : Counter) (hnn : ∀ x, 0 ≤ a x)
    (h : update_availability r a = .error (d, c)) :
    d ∈ date_range r.start r.«end» ∧ a d = 0 ∧ c d = -1 ∧
      (∀ x ∈ date_range r.start r.«end», x < d → c x = a x - 1) ∧
      (∀ x, x ∉ date_range r.start r.«end» ∨ d < x → c x = a x) ∧
      c d ≠ a d := by
  obtain ⟨hdm, hdle, hcd, hbefore, hafter⟩ :=
    update_days_err_state _ a (date_range_sorted _ _) d c h
  have h0 : a d = 0 := le_antisymm hdle (hnn d)
  refine ⟨hdm, h0, by rw [hcd, h0]; decide,
    fun x hx hxd => (hbefore x hx hxd).1, hafter, by rw [hcd, h0]; decide⟩

/-- A counter with a zero on 2024-01-02 and two free rooms elsewhere. -/
def stuckCounter : Counter := fun x => if x = day20240102 then 0 else 2

/-- The counter state at the moment Alice's failing commit raises. -/
def stuckResult : Counter :=
  match update_availability alice stuckCounter with
  | .ok c => c
  | .error (_, c) => c

/-- Witness for C9: Alice's commit against `stuckCounter` raises at
2024-01-02, with 2024-01-01 already decremented, 2024-01-02 left at -1 and
2024-01-03 untouched. -/
theorem commit_not_atomic_witness :
    stuckCounter day20240102 = 0 ∧ stuckResult day20240102 = -1 ∧
      stuckResult day20240101 = stuckCounter day20240101 - 1 ∧
      stuckResult day20240103 = stuckCounter day20240103 ∧
      stuckResult day20240102 ≠ stuckCounter day20240102 := by
  have hnn : ∀ x, 0 ≤ stuckCounter x := by
    intro x
    unfold stuckCounter
    split <;> decide
  have h : update_availability alice stuckCounter
      = .error (day20240102, stuckResult) := rfl
  have main :=
    commit_not_atomic alice stuckCounter day20240102 stuckResult hnn h
  exact ⟨main.2.1, main.2.2.1,
    main.2.2.2.1 day20240101 (by decide) (by decide),
    main.2.2.2.2.1 day20240103 (by decide), main.2.2.2.2.2⟩

/-- C10: out-of-domain dates read as the Counter default 0 instead of
failing, so `remove_conflicting` removes every pool reservation whose span
contains a date outside the tracked domain. -/
theorem counter_default_zero (r0 : Reservation) (rs : List Reservation)
    (pool : List Reservation) (r : Reservation) (d : Nat) (_hr : r ∈ pool)
    (hd : d ∈ date_range r.start r.«end»)
    (hout : d ∉ date_range (minStart r0 rs) (maxEnd r0 rs)) :
    mkAvail r0 rs d = 0 ∧
      r ∉ remove_conflicting pool (mkAvail r0 rs) := by
  have h0 : mkAvail r0 rs d = 0 := by
    rw [mkAvail_eval, if_neg hout]
  refine ⟨h0, fun hmem => ?_⟩
  rw [remove_conflicting_eq_filter, List.mem_filter] at hmem
  have hcf : conflicts (mkAvail r0 rs) r = false := by
    simpa using hmem.2
  exact (conflicts_eq_false_iff _ r).mp hcf d hd h0

/-- A reservation extending past the domain tracked for Alice alone. -/
def lateReservation : Reservation := ⟨day20240103, day20240104, "Late"⟩

/-- Witness for C10: against the tracker built from Alice alone, the
out-of-domain date 2024-01-03 reads 0 and the late reservation is pruned. -/
theorem counter_default_zero_witness :
    mkAvail alice [] day20240103 = 0 ∧
      lateReservation ∉ remove_conflicting [lateReservation]
        (mkAvail alice []) :=
  counter_default_zero alice [] [lateReservation] lateReservation
    day20240103 (List.mem_singleton.mpr rfl) (by decide) (by decide)

end ReservationResolver
